import Mathlib

/-!
Verification development for the image-to-Excel pixel-art converter
(src/app.py).  The core function `image_to_excel_pixel_art` is embedded
shallowly: the decoded image is a dimensions-plus-pixel-accessor record, the
openpyxl worksheet is a list of cell assignments, the style cache is an
association list, and the Streamlit progress bar is the list of fraction
values it receives.  Python ints are unbounded and map to Nat.  The float
arithmetic of the resize step (app.py lines 33-35) is IEEE-754 binary64; it
is embedded exactly as round-to-nearest-even over the rationals (`rnd`),
which coincides with binary64 on the normal, non-overflowing range where
those lines operate.
-/

set_option autoImplicit false

namespace ExcelArt

/-- An RGB pixel as returned by `img.getpixel((x, y))` on an RGB-mode image:
a triple of channels, each in 0..255 for a real image. -/
abbrev RGB := Nat × Nat × Nat

/-- A pixel triple whose channels are all in range 0..255, as Pillow produces
for an RGB-mode image. -/
abbrev validRGB (c : RGB) : Prop := c.1 < 256 ∧ c.2.1 < 256 ∧ c.2.2 < 256

/-- A decoded raster image after the forced RGB conversion of app.py lines
24-27: width, height, and the pixel accessor (`pixel x y` is column x, row
y, mirroring `img.getpixel((x, y))`). -/
structure Img where
  width : Nat
  height : Nat
  pixel : Nat → Nat → RGB

/-- Lowercase hexadecimal digit of a value in 0..15 (codepoint 48 is the
digit 0 and codepoint 97 is the letter a). -/
def hexDigit (n : Nat) : Char :=
  if n < 10 then Char.ofNat (48 + n) else Char.ofNat (87 + n)

/-- Two-digit zero-padded lowercase hexadecimal rendering of one channel, as
produced by the 02x format specifier in app.py line 60. -/
def toHex2 (n : Nat) : String :=
  String.mk [hexDigit (n / 16), hexDigit (n % 16)]

/-- The color key of app.py line 60: the lowercase 6-hex-digit string of an
(r, g, b) triple. -/
def hexColor : RGB → String
  | (r, g, b) => toHex2 r ++ toHex2 g ++ toHex2 b

/-- An openpyxl `PatternFill(start_color=hc, end_color=hc, fill_type="solid")`
value (app.py line 65). -/
structure Fill where
  start_color : String
  end_color : String
  fill_type : String

/-- The fill built for a color key in app.py line 65. -/
def mkFill (hc : String) : Fill :=
  ⟨hc, hc, "solid"⟩

/-- The mutable state of the pixel walk of app.py lines 53-69: the
`fill_cache` dictionary and the cells written so far (most recent first,
each tagged with its one-indexed (row, column) coordinates). -/
structure EncState where
  cache : List (String × Fill)
  grid : List ((Nat × Nat) × Fill)

/-- One iteration of the inner loop of app.py lines 58-69: read the pixel at
(x, y), form its color key, reuse the cached fill or create and cache a new
one, and assign it to the cell at row y+1, column x+1. -/
def encodeStep (img : Img) (y : Nat) (st : EncState) (x : Nat) : EncState :=
  match st.cache.find? (fun e => decide (e.1 = hexColor (img.pixel x y))) with
  | some e => ⟨st.cache, ((y + 1, x + 1), e.2) :: st.grid⟩
  | none =>
    ⟨(hexColor (img.pixel x y), mkFill (hexColor (img.pixel x y))) :: st.cache,
     ((y + 1, x + 1), mkFill (hexColor (img.pixel x y))) :: st.grid⟩

/-- The cell assignment the walk performs at image coordinates (x, y): the
cell at one-indexed (row y+1, column x+1) receives the fill of the pixel's
color key. -/
def entryAt (img : Img) (y x : Nat) : (Nat × Nat) × Fill :=
  ((y + 1, x + 1), mkFill (hexColor (img.pixel x y)))

/-- Invariant of the `fill_cache` dictionary during the walk over `img`:
every cached fill is the solid fill of its own key, the keys are distinct
(a dictionary holds each key once), and every key is the color key of some
in-range pixel. -/
def cacheWf (img : Img) (cache : List (String × Fill)) : Prop :=
  (∀ e ∈ cache, e.2 = mkFill e.1)
  ∧ (cache.map Prod.fst).Nodup
  ∧ ∀ e ∈ cache, ∃ x, x < img.width ∧ ∃ y, y < img.height ∧ e.1 = hexColor (img.pixel x y)

/-- One iteration of the outer loop of app.py lines 57-69: walk row y over
columns x = 0 .. width-1. -/
def encodeRow (img : Img) (st : EncState) (y : Nat) : EncState :=
  (List.range img.width).foldl (encodeStep img y) st

/-- The whole pixel walk of app.py lines 53-69, starting from an empty cache
and an empty sheet. -/
def encodeImage (img : Img) : EncState :=
  (List.range img.height).foldl (encodeRow img) ⟨[], []⟩

/-- Read back the fill of the cell at one-indexed coordinates rc, if one was
assigned (the most recent assignment wins, as in a worksheet). -/
def lookupCell (g : List ((Nat × Nat) × Fill)) (rc : Nat × Nat) : Option Fill :=
  (g.find? (fun e => decide (e.1 = rc))).map Prod.snd

/-- Read back the fill color of the cell at one-indexed coordinates rc. -/
def cellColor (g : List ((Nat × Nat) × Fill)) (rc : Nat × Nat) : Option String :=
  (lookupCell g rc).map Fill.start_color

/-- All pixels of an image in the row-major order of the walk (for y, for x). -/
def allPixels (img : Img) : List RGB :=
  (List.range img.height).flatMap fun y => (List.range img.width).map fun x => img.pixel x y

/-- The number of distinct colors of the processed image. -/
def distinctColorCount (img : Img) : Nat :=
  (allPixels img).dedup.length

/-- The two resampling kernels the sidebar offers (app.py lines 111-114):
`Image.Resampling.NEAREST` and `Image.Resampling.LANCZOS`. -/
inductive Kernel where
  | nearest
  | lanczos

/-- Round a rational to the nearest integer, ties to even — the rounding
binary64 applies to the scaled significand. -/
def rhe (r : ℚ) : ℤ :=
  if Int.fract r < 1 / 2 then ⌊r⌋
  else if 1 / 2 < Int.fract r then ⌊r⌋ + 1
  else if ⌊r⌋ % 2 = 0 then ⌊r⌋ else ⌊r⌋ + 1

/-- The binary64 (IEEE-754 double, Python's float) value nearest to a
positive rational: the significand is scaled into [2^52, 2^53), rounded to
the nearest integer with ties to even, and scaled back.  The exponent is
unbounded here, so this is exactly binary64 rounding on the normal,
non-overflowing range — which covers every value lines 33-35 of app.py can
produce for in-range inputs (max_size within the 32..512 slider, image
dimensions positive machine integers). -/
def rnd (q : ℚ) : ℚ :=
  if q ≤ 0 then 0
  else ((rhe (q * 2 ^ ((52:ℤ) - Int.log 2 q)) : ℤ) : ℚ) * 2 ^ (Int.log 2 q - 52)

/-- Correctly-rounded double division, the `max_size / width` of app.py
line 33 (both operands are Python ints, converted exactly, with one rounded
division). -/
def flDiv (a b : ℚ) : ℚ :=
  rnd (a / b)

/-- Correctly-rounded double multiplication, the `width * ratio` of app.py
lines 34-35 (the int operand converts exactly for dimensions below 2^53). -/
def flMul (a b : ℚ) : ℚ :=
  rnd (a * b)

/-- The scale factor `ratio = min(max_size / width, max_size / height)` of
app.py line 33, computed as Python computes it: two correctly-rounded double
divisions, then the smaller of the two doubles. -/
def resizeScale (max_size w h : Nat) : ℚ :=
  min (flDiv max_size w) (flDiv max_size h)

/-- The new width `int(width * ratio)` of app.py line 34: one rounded double
multiplication, then `int()` truncation, which on this nonnegative value is
the floor. -/
def newWidth (max_size w h : Nat) : Nat :=
  (⌊flMul w (resizeScale max_size w h)⌋).toNat

/-- The new height `int(height * ratio)` of app.py line 35. -/
def newHeight (max_size w h : Nat) : Nat :=
  (⌊flMul h (resizeScale max_size w h)⌋).toNat

/-- The image produced by `img.resize((new_width, new_height), resampling_method)`
(app.py line 36).  The resize is performed by the external Pillow collaborator;
its exact interpolated pixel values are outside this repository, so the pixels
are modelled by proportional index sampling.  Every claim below depends only
on the dimensions of the result, never on these pixel values. -/
def resizeImage (kernel : Kernel) (img : Img) (w h : Nat) : Img :=
  { width := w
    height := h
    pixel := fun x y =>
      match kernel with
      | Kernel.nearest => img.pixel (x * img.width / w) (y * img.height / h)
      | Kernel.lanczos => img.pixel (x * img.width / w) (y * img.height / h) }

/-- The conditional resize stage of app.py lines 29-39: resize only when
resizing is enabled and at least one dimension exceeds `max_size`; otherwise
the image passes through unchanged. -/
def processImage (should_resize : Bool) (max_size : Nat) (kernel : Kernel) (img : Img) : Img :=
  if should_resize = true ∧ (max_size < img.width ∨ max_size < img.height) then
    resizeImage kernel img (newWidth max_size img.width img.height)
      (newHeight max_size img.width img.height)
  else img

/-- The per-row fraction values `(y + 1) / height` that app.py line 72 sends
to the progress bar, one after each completed row. -/
def rowTrace (height : Nat) : List ℚ :=
  (List.range height).map fun (y : Nat) => ((y : ℚ) + 1) / height

/-- Every fraction value the progress bar receives during one conversion:
0 at creation (app.py line 55), `(y + 1) / height` after each row (line 72),
and a final 1.0 while the file is finalized (line 76). -/
def progressTrace (height : Nat) : List ℚ :=
  0 :: rowTrace height ++ [1]

/-- The stage sequencing of `image_to_excel_pixel_art`: decode (`Image.open`,
line 24), the RGB-conversion/resize stage (lines 26-39), the pixel-grid
encoding (lines 41-76) and the workbook serialization into a buffer (lines
78-80).  The function installs no exception handler, so each fallible stage
is an `Except` computation chained by bind: the first failing stage's error
is the result, and a buffer exists only when every stage succeeded. -/
def runPipeline {A B C D E : Type} (decode : A → Except E B) (resize : B → Except E B)
    (encode : B → Except E C) (serialize : C → Except E D) (input : A) : Except E D := do
  let img ← decode input
  let processed ← resize img
  let grid ← encode processed
  serialize grid

/-! The color-quantization stage.  The spec (sections 2, 4.2 and 6) describes
an optional ColorQuantizer driven by a colorCount configuration, but src/
contains no quantization code, so this stage is modelled from the spec. -/

/-- A per-channel error value during dithering (signed). -/
abbrev IntRGB := Int × Int × Int

/-- The zero error. -/
def zeroE : IntRGB := (0, 0, 0)

/-- Componentwise sum of error triples. -/
def addE (a b : IntRGB) : IntRGB :=
  (a.1 + b.1, a.2.1 + b.2.1, a.2.2 + b.2.2)

/-- Componentwise difference of error triples. -/
def subE (a b : IntRGB) : IntRGB :=
  (a.1 - b.1, a.2.1 - b.2.1, a.2.2 - b.2.2)

/-- A pixel viewed as a signed triple. -/
def toE (c : RGB) : IntRGB :=
  ((c.1 : Int), (c.2.1 : Int), (c.2.2 : Int))

/-- The k/16 fraction of an error triple used by Floyd-Steinberg diffusion
(k is 7, 3, 5 or 1). -/
def scaleErr (k : Int) (e : IntRGB) : IntRGB :=
  (k * e.1 / 16, k * e.2.1 / 16, k * e.2.2 / 16)

/-- Clamp a signed channel back into 0..255. -/
def clampChan (v : Int) : Nat :=
  (min (max v 0) 255).toNat

/-- Clamp a signed triple back into a pixel. -/
def clamp3 (v : IntRGB) : RGB :=
  (clampChan v.1, clampChan v.2.1, clampChan v.2.2)

/-- Squared Euclidean distance between two pixels, the measure used to snap
a dithered value to the nearest palette color. -/
def dist2 (a b : RGB) : Int :=
  ((a.1 : Int) - b.1) ^ 2 + ((a.2.1 : Int) - b.2.1) ^ 2 + ((a.2.2 : Int) - b.2.2) ^ 2

/-- The palette color nearest to v (first wins on ties; v itself if the
palette is empty, which the quantizer never passes). -/
def nearestColor (pal : List RGB) (v : RGB) : RGB :=
  match pal with
  | [] => v
  | [c] => c
  | c :: c2 :: rest =>
    let r := nearestColor (c2 :: rest) v
    if dist2 c v ≤ dist2 r v then c else r

/-- Modelled from the spec: the coverage-maximizing palette selection of
spec section 4.2 (src/ has no quantizer).  When the image's distinct colors
already fit in n, the palette is exactly those colors; otherwise it is the n
colors of greatest pixel coverage (most frequent first). -/
def palette (n : Nat) (rows : List (List RGB)) : List RGB :=
  if rows.flatten.dedup.length ≤ n then rows.flatten.dedup
  else
    (rows.flatten.dedup.mergeSort fun c d =>
      decide (rows.flatten.count d ≤ rows.flatten.count c)).take n

/-- Modelled from the spec: one row of Floyd-Steinberg error diffusion
(spec section 4.2; src/ has no quantizer).  Each pixel adds its incoming
error (the 7/16 carry from its left neighbor plus the previous row's
diffusion, `inE`), clamps to 0..255, snaps to the nearest palette color and
diffuses the residual with the Floyd-Steinberg weights: 7/16 to the right,
3/16 below-left, 5/16 below, 1/16 below-right.  `a` and `b` accumulate the
next row's errors at the columns just left of and at the current pixel; the
returned error list carries a leading phantom entry for column -1, stripped
by the caller. -/
def fsRow (pal : List RGB) : List RGB → List IntRGB → IntRGB → IntRGB → IntRGB →
    List RGB × List IntRGB
  | [], _, _, a, _ => ([], [a])
  | px :: rest, inE, carry, a, b =>
    let v := clamp3 (addE (toE px) (addE carry (inE.headD zeroE)))
    let q := nearestColor pal v
    let e := subE (toE v) (toE q)
    let next := fsRow pal rest inE.tail (scaleErr 7 e) (addE b (scaleErr 5 e)) (scaleErr 1 e)
    (q :: next.1, addE a (scaleErr 3 e) :: next.2)

/-- Modelled from the spec: Floyd-Steinberg dithering over the whole pixel
grid, row-major, each row passing its diffused error down to the next. -/
def fsRows (pal : List RGB) : List (List RGB) → List IntRGB → List (List RGB)
  | [], _ => []
  | r :: rs, inE =>
    let p := fsRow pal r inE zeroE zeroE zeroE
    p.1 :: fsRows pal rs p.2.tail

/-- Modelled from the spec: the whole quantization stage of spec section 4.2
(src/ has no quantizer) — select a coverage-maximizing palette of at most n
colors, then map every pixel through Floyd-Steinberg error-diffusion
dithering onto that palette, returning direct RGB triples. -/
def quantize (n : Nat) (rows : List (List RGB)) : List (List RGB) :=
  if (palette n rows).isEmpty then rows else fsRows (palette n rows) rows []

/-- Every pixel of a row grid is a valid 0..255 triple. -/
abbrev validRows (rows : List (List RGB)) : Prop :=
  ∀ r ∈ rows, ∀ p ∈ r, validRGB p

/-! Lemmas about the pixel walk. -/

theorem encodeStep_spec (img : Img) (y x : Nat) (st : EncState)
    (hx : x < img.width) (hy : y < img.height) (hwf : cacheWf img st.cache) :
    (encodeStep img y st x).grid = entryAt img y x :: st.grid
    ∧ cacheWf img (encodeStep img y st x).cache := by
  obtain ⟨h1, h2, h3⟩ := hwf
  unfold encodeStep
  cases hf : st.cache.find? (fun e => decide (e.1 = hexColor (img.pixel x y))) with
  | some e =>
    have hkey : e.1 = hexColor (img.pixel x y) := by simpa using List.find?_some hf
    have he2 : e.2 = mkFill e.1 := h1 e (List.mem_of_find?_eq_some hf)
    constructor
    · simp [entryAt, he2, hkey]
    · exact ⟨h1, h2, h3⟩
  | none =>
    have hnot : hexColor (img.pixel x y) ∉ st.cache.map Prod.fst := by
      intro hmem
      obtain ⟨e, he, hk⟩ := List.mem_map.mp hmem
      have := List.find?_eq_none.mp hf e he
      simp [hk] at this
    refine ⟨rfl, ?_, ?_, ?_⟩
    · intro e he
      rcases List.mem_cons.mp he with h | h
      · subst h; rfl
      · exact h1 e h
    · rw [List.map_cons, List.nodup_cons]
      exact ⟨hnot, h2⟩
    · intro e he
      rcases List.mem_cons.mp he with h | h
      · subst h; exact ⟨x, hx, y, hy, rfl⟩
      · exact h3 e h

theorem foldl_encodeStep_spec (img : Img) (y : Nat) (hy : y < img.height) :
    ∀ (l : List Nat) (st : EncState), (∀ x ∈ l, x < img.width) → cacheWf img st.cache →
      (l.foldl (encodeStep img y) st).grid = (l.map (entryAt img y)).reverse ++ st.grid
      ∧ cacheWf img ((l.foldl (encodeStep img y) st).cache) := by
  intro l
  induction l with
  | nil => intro st _ hwf; exact ⟨by simp, hwf⟩
  | cons a t ih =>
    intro st hl hwf
    have ha : a < img.width := hl a (by simp)
    have hstep := encodeStep_spec img y a st ha hy hwf
    have iht := ih (encodeStep img y st a) (fun x hx => hl x (by simp [hx])) hstep.2
    refine ⟨?_, by rw [List.foldl_cons]; exact iht.2⟩
    rw [List.foldl_cons, iht.1, hstep.1]
    simp

theorem encodeRow_spec (img : Img) (y : Nat) (st : EncState) (hy : y < img.height)
    (hwf : cacheWf img st.cache) :
    (encodeRow img st y).grid = ((List.range img.width).map (entryAt img y)).reverse ++ st.grid
    ∧ cacheWf img (encodeRow img st y).cache :=
  foldl_encodeStep_spec img y hy (List.range img.width) st (fun _ hx => List.mem_range.mp hx) hwf

theorem foldl_encodeRow_spec (img : Img) :
    ∀ (l : List Nat) (st : EncState), (∀ y ∈ l, y < img.height) → cacheWf img st.cache →
      cacheWf img ((l.foldl (encodeRow img) st).cache)
      ∧ ∀ p, p ∈ (l.foldl (encodeRow img) st).grid ↔
          (∃ y ∈ l, ∃ x, x < img.width ∧ p = entryAt img y x) ∨ p ∈ st.grid := by
  intro l
  induction l with
  | nil => intro st _ hwf; exact ⟨hwf, by simp⟩
  | cons a t ih =>
    intro st hl hwf
    have ha : a < img.height := hl a (by simp)
    have hrow := encodeRow_spec img a st ha hwf
    have iht := ih (encodeRow img st a) (fun y hy => hl y (by simp [hy])) hrow.2
    refine ⟨by rw [List.foldl_cons]; exact iht.1, ?_⟩
    intro p
    rw [List.foldl_cons, iht.2 p, hrow.1]
    constructor
    · rintro (⟨y, hy, x, hx, rfl⟩ | hmem)
      · exact Or.inl ⟨y, List.mem_cons_of_mem a hy, x, hx, rfl⟩
      · rcases List.mem_append.mp hmem with hrev | hst
        · obtain ⟨x, hx, hpe⟩ := List.mem_map.mp (List.mem_reverse.mp hrev)
          exact Or.inl ⟨a, List.mem_cons_self a t, x, List.mem_range.mp hx, hpe.symm⟩
        · exact Or.inr hst
    · rintro (⟨y, hy, x, hx, rfl⟩ | hst)
      · rcases List.mem_cons.mp hy with rfl | hyt
        · refine Or.inr (List.mem_append.mpr (Or.inl ?_))
          exact List.mem_reverse.mpr (List.mem_map.mpr ⟨x, List.mem_range.mpr hx, rfl⟩)
        · exact Or.inl ⟨y, hyt, x, hx, rfl⟩
      · exact Or.inr (List.mem_append.mpr (Or.inr hst))

theorem encodeImage_spec (img : Img) :
    cacheWf img (encodeImage img).cache
    ∧ ∀ p, p ∈ (encodeImage img).grid ↔
        ∃ y, y < img.height ∧ ∃ x, x < img.width ∧ p = entryAt img y x := by
  have hwf0 : cacheWf img (⟨[], []⟩ : EncState).cache := by
    refine ⟨?_, by simp, ?_⟩ <;> intro e he <;> simp at he
  have h := foldl_encodeRow_spec img (List.range img.height) ⟨[], []⟩
    (fun y hy => List.mem_range.mp hy) hwf0
  refine ⟨h.1, fun p => ?_⟩
  rw [show encodeImage img = (List.range img.height).foldl (encodeRow img) ⟨[], []⟩ from rfl,
    h.2 p]
  simp

theorem lookupCell_encode (img : Img) (x y : Nat) (hx : x < img.width) (hy : y < img.height) :
    lookupCell (encodeImage img).grid (y + 1, x + 1) = some (mkFill (hexColor (img.pixel x y))) := by
  have hmem : entryAt img y x ∈ (encodeImage img).grid :=
    ((encodeImage_spec img).2 _).mpr ⟨y, hy, x, hx, rfl⟩
  have hsome : ((encodeImage img).grid.find?
      (fun e => decide (e.1 = ((y + 1 : Nat), (x + 1 : Nat))))).isSome := by
    rw [List.find?_isSome]
    exact ⟨entryAt img y x, hmem, by simp [entryAt]⟩
  obtain ⟨e, hfind⟩ := Option.isSome_iff_exists.mp hsome
  have he_mem := List.mem_of_find?_eq_some hfind
  have he_key : e.1 = ((y + 1 : Nat), (x + 1 : Nat)) := by simpa using List.find?_some hfind
  obtain ⟨y', hy', x', hx', rfl⟩ := ((encodeImage_spec img).2 e).mp he_mem
  have hyx : y' = y ∧ x' = x := by
    simp only [entryAt, Prod.mk.injEq] at he_key
    omega
  obtain ⟨rfl, rfl⟩ := hyx
  simp [lookupCell, hfind, entryAt]

theorem cache_length_le (img : Img) :
    (encodeImage img).cache.length ≤ distinctColorCount img := by
  obtain ⟨h1, h2, h3⟩ := (encodeImage_spec img).1
  have hsub : (encodeImage img).cache.map Prod.fst ⊆ (allPixels img).map hexColor := by
    intro k hk
    obtain ⟨e, he, rfl⟩ := List.mem_map.mp hk
    obtain ⟨x, hx, y, hy, hkey⟩ := h3 e he
    refine List.mem_map.mpr ⟨img.pixel x y, ?_, hkey.symm⟩
    exact List.mem_flatMap.mpr ⟨y, List.mem_range.mpr hy,
      List.mem_map.mpr ⟨x, List.mem_range.mpr hx, rfl⟩⟩
  have himg : ((allPixels img).map hexColor).toFinset ⊆ (allPixels img).toFinset.image hexColor := by
    intro s hs
    obtain ⟨c, hc, rfl⟩ := List.mem_map.mp (List.mem_toFinset.mp hs)
    exact Finset.mem_image.mpr ⟨c, List.mem_toFinset.mpr hc, rfl⟩
  calc (encodeImage img).cache.length
      = ((encodeImage img).cache.map Prod.fst).length := by simp
    _ = ((encodeImage img).cache.map Prod.fst).toFinset.card :=
        (List.toFinset_card_of_nodup h2).symm
    _ ≤ ((allPixels img).map hexColor).toFinset.card :=
        Finset.card_le_card (fun a ha => List.mem_toFinset.mpr (hsub (List.mem_toFinset.mp ha)))
    _ ≤ ((allPixels img).toFinset.image hexColor).card := Finset.card_le_card himg
    _ ≤ (allPixels img).toFinset.card := Finset.card_image_le
    _ = distinctColorCount img := List.card_toFinset _

/-! Injectivity of the color key. -/

theorem hexDigit_inj : ∀ a < 16, ∀ b < 16, hexDigit a = hexDigit b → a = b := by decide

theorem hexColor_inj (c1 c2 : RGB) (h1 : validRGB c1) (h2 : validRGB c2)
    (h : hexColor c1 = hexColor c2) : c1 = c2 := by
  obtain ⟨r1, g1, b1⟩ := c1
  obtain ⟨r2, g2, b2⟩ := c2
  obtain ⟨hr1, hg1, hb1⟩ := h1
  obtain ⟨hr2, hg2, hb2⟩ := h2
  simp only at hr1 hg1 hb1 hr2 hg2 hb2
  have hd := congrArg String.data h
  simp only [hexColor, toHex2, String.data_append, List.cons_append, List.nil_append,
    List.cons.injEq, and_true] at hd
  obtain ⟨e1, e2, e3, e4, e5, e6⟩ := hd
  have hr : r1 = r2 := by
    have d1 := hexDigit_inj (r1 / 16) (by omega) (r2 / 16) (by omega) e1
    have d2 := hexDigit_inj (r1 % 16) (by omega) (r2 % 16) (by omega) e2
    omega
  have hg : g1 = g2 := by
    have d1 := hexDigit_inj (g1 / 16) (by omega) (g2 / 16) (by omega) e3
    have d2 := hexDigit_inj (g1 % 16) (by omega) (g2 % 16) (by omega) e4
    omega
  have hb : b1 = b2 := by
    have d1 := hexDigit_inj (b1 / 16) (by omega) (b2 / 16) (by omega) e5
    have d2 := hexDigit_inj (b1 % 16) (by omega) (b2 % 16) (by omega) e6
    omega
  simp [hr, hg, hb]

/-! Claims C1, C2, C10. -/

/-- C1: for every processed image of dimensions W x H, every 0 <= x < W and
0 <= y < H, the fill color of the cell at one-indexed (row y+1, column x+1)
equals the lowercase 6-hex-digit encoding of pixel (x, y); reading the cell
colors back reproduces the pixel grid exactly. -/
theorem C1_cell_color_roundtrip (img : Img) (x y : Nat)
    (hx : x < img.width) (hy : y < img.height) :
    cellColor (encodeImage img).grid (y + 1, x + 1) = some (hexColor (img.pixel x y)) := by
  simp [cellColor, lookupCell_encode img x y hx hy, mkFill]

theorem C1_cell_color_roundtrip_witness :
    cellColor (encodeImage ⟨2, 2, fun x y => (x + y, 10, 20)⟩).grid (1 + 1, 1 + 1) =
      some (hexColor (1 + 1, 10, 20)) :=
  C1_cell_color_roundtrip ⟨2, 2, fun x y => (x + y, 10, 20)⟩ 1 1 (by decide) (by decide)

/-- C2: two pixels of the processed image with equal (R,G,B) triples are
assigned the same fill-style handle, and the style cache ends no larger
than the number of distinct colors of the processed image. -/
theorem C2_style_cache_dedup (img : Img) (x1 y1 x2 y2 : Nat)
    (hx1 : x1 < img.width) (hy1 : y1 < img.height)
    (hx2 : x2 < img.width) (hy2 : y2 < img.height)
    (hpix : img.pixel x1 y1 = img.pixel x2 y2) :
    lookupCell (encodeImage img).grid (y1 + 1, x1 + 1) =
      lookupCell (encodeImage img).grid (y2 + 1, x2 + 1)
    ∧ (encodeImage img).cache.length ≤ distinctColorCount img := by
  constructor
  · rw [lookupCell_encode img x1 y1 hx1 hy1, lookupCell_encode img x2 y2 hx2 hy2, hpix]
  · exact cache_length_le img

theorem C2_style_cache_dedup_witness :
    lookupCell (encodeImage ⟨2, 1, fun _ _ => (5, 5, 5)⟩).grid (0 + 1, 0 + 1) =
      lookupCell (encodeImage ⟨2, 1, fun _ _ => (5, 5, 5)⟩).grid (0 + 1, 1 + 1)
    ∧ (encodeImage ⟨2, 1, fun _ _ => (5, 5, 5)⟩).cache.length ≤
        distinctColorCount ⟨2, 1, fun _ _ => (5, 5, 5)⟩ :=
  C2_style_cache_dedup ⟨2, 1, fun _ _ => (5, 5, 5)⟩ 0 0 1 0
    (by decide) (by decide) (by decide) (by decide) rfl

/-- C10: the color-key function is injective on channel values 0..255 (for
in-range pixels, equal keys hold exactly for equal triples), so two pixels
with different colors are never assigned the same fill-style handle. -/
theorem C10_hex_key_injective (img : Img) (x1 y1 x2 y2 : Nat)
    (hx1 : x1 < img.width) (hy1 : y1 < img.height)
    (hx2 : x2 < img.width) (hy2 : y2 < img.height)
    (hv1 : validRGB (img.pixel x1 y1)) (hv2 : validRGB (img.pixel x2 y2)) :
    (hexColor (img.pixel x1 y1) = hexColor (img.pixel x2 y2) ↔
      img.pixel x1 y1 = img.pixel x2 y2)
    ∧ (img.pixel x1 y1 ≠ img.pixel x2 y2 →
        lookupCell (encodeImage img).grid (y1 + 1, x1 + 1) ≠
          lookupCell (encodeImage img).grid (y2 + 1, x2 + 1)) := by
  have hinj := hexColor_inj _ _ hv1 hv2
  refine ⟨⟨fun h => hinj h, fun h => by rw [h]⟩, fun hne => ?_⟩
  rw [lookupCell_encode img x1 y1 hx1 hy1, lookupCell_encode img x2 y2 hx2 hy2]
  intro hsome
  apply hne
  apply hinj
  have hfill : mkFill (hexColor (img.pixel x1 y1)) = mkFill (hexColor (img.pixel x2 y2)) := by
    simpa using hsome
  simpa [mkFill, Fill.mk.injEq] using hfill

theorem C10_hex_key_injective_witness :
    lookupCell (encodeImage ⟨2, 1, fun x _ => (x, 0, 0)⟩).grid (0 + 1, 0 + 1) ≠
      lookupCell (encodeImage ⟨2, 1, fun x _ => (x, 0, 0)⟩).grid (0 + 1, 1 + 1) :=
  (C10_hex_key_injective ⟨2, 1, fun x _ => (x, 0, 0)⟩ 0 0 1 0
    (by decide) (by decide) (by decide) (by decide) (by decide) (by decide)).2 (by decide)

/-! The resize stage: claims C3, C4, C7, C9. -/

/-- C3: for every image whose width and height are both at most max_size,
with resizing enabled, the resampling stage is a no-op: the image passes
through unchanged, so the output dimensions equal the input dimensions and
no upscaling ever occurs. -/
theorem C3_resize_noop_small (img : Img) (max_size : Nat) (kernel : Kernel)
    (hw : img.width ≤ max_size) (hh : img.height ≤ max_size) :
    processImage true max_size kernel img = img := by
  unfold processImage
  rw [if_neg]
  rintro ⟨-, h | h⟩ <;> omega

theorem C3_resize_noop_small_witness :
    processImage true 4 Kernel.nearest ⟨2, 2, fun _ _ => (255, 0, 0)⟩ =
      ⟨2, 2, fun _ _ => (255, 0, 0)⟩ :=
  C3_resize_noop_small ⟨2, 2, fun _ _ => (255, 0, 0)⟩ 4 Kernel.nearest (by decide) (by decide)

theorem floor_toNat_bounds (q : ℚ) (hq : 0 ≤ q) :
    ((⌊q⌋.toNat : ℚ)) ≤ q ∧ q < (⌊q⌋.toNat : ℚ) + 1 := by
  have h0 : 0 ≤ ⌊q⌋ := Int.floor_nonneg.mpr hq
  have hcast : ((⌊q⌋.toNat : ℚ)) = ((⌊q⌋ : ℤ) : ℚ) := by exact_mod_cast Int.toNat_of_nonneg h0
  rw [hcast]
  exact ⟨Int.floor_le q, Int.lt_floor_add_one q⟩

theorem rhe_bounds (r : ℚ) : r - 1/2 ≤ (rhe r : ℚ) ∧ (rhe r : ℚ) ≤ r + 1/2 := by
  have hf1 : 0 ≤ Int.fract r := Int.fract_nonneg r
  have hf2 : Int.fract r < 1 := Int.fract_lt_one r
  have hfe : (⌊r⌋ : ℚ) = r - Int.fract r := by
    rw [Int.fract]
    ring
  unfold rhe
  split_ifs with h1 h2 h3 <;> push_cast <;> constructor <;> linarith

theorem log_eq_of (q : ℚ) (e : ℤ) (hq : 0 < q) (h1 : (2:ℚ)^e ≤ q) (h2 : q < (2:ℚ)^(e+1)) :
    Int.log 2 q = e := by
  have hle : e ≤ Int.log 2 q := by
    rw [← Int.zpow_le_iff_le_log one_lt_two hq]
    push_cast
    exact h1
  have hlt : Int.log 2 q < e + 1 := by
    rw [← Int.lt_zpow_iff_log_lt one_lt_two hq]
    push_cast
    exact h2
  omega

theorem rnd_bounds (q : ℚ) (hq : 0 < q) :
    q - q / 2 ^ 53 ≤ rnd q ∧ rnd q ≤ q + q / 2 ^ 53 := by
  unfold rnd
  rw [if_neg (not_le.mpr hq)]
  have h1 : (2:ℚ) ^ (Int.log 2 q) ≤ q := by
    have := Int.zpow_log_le_self one_lt_two hq
    push_cast at this
    exact this
  have hP : (0:ℚ) < 2 ^ (Int.log 2 q - 52) := zpow_pos (by norm_num) _
  have hkey : (2:ℚ) ^ ((52:ℤ) - Int.log 2 q) * (2:ℚ) ^ (Int.log 2 q - 52) = 1 := by
    rw [← zpow_add₀ (two_ne_zero)]
    norm_num
  have h53 : (0:ℚ) < 2 ^ (53:ℕ) := by positivity
  have hsmall : (2:ℚ) ^ (Int.log 2 q - 52) * (1/2) ≤ q / 2 ^ 53 := by
    have key2 : (2:ℚ) ^ (Int.log 2 q - 52) * (1/2) * 2 ^ (53:ℕ) = 2 ^ (Int.log 2 q) := by
      rw [show ((2:ℚ) ^ (53:ℕ)) = (2:ℚ) ^ ((53:ℤ)) from (zpow_natCast 2 53).symm,
        show (1/2 : ℚ) = (2:ℚ) ^ (-1:ℤ) by norm_num,
        ← zpow_add₀ (two_ne_zero), ← zpow_add₀ (two_ne_zero)]
      congr 1
      omega
    rw [le_div_iff₀ h53, key2]
    exact h1
  obtain ⟨hl, hr⟩ := rhe_bounds (q * 2 ^ ((52:ℤ) - Int.log 2 q))
  constructor
  · have hstep := mul_le_mul_of_nonneg_right hl (le_of_lt hP)
    calc q - q / 2^53 ≤ (q * 2 ^ ((52:ℤ) - Int.log 2 q) - 1/2) * 2 ^ (Int.log 2 q - 52) := by
          rw [sub_mul, mul_assoc, hkey, mul_one]
          linarith [hsmall]
      _ ≤ _ := hstep
  · have hstep := mul_le_mul_of_nonneg_right hr (le_of_lt hP)
    calc ((rhe (q * 2 ^ ((52:ℤ) - Int.log 2 q)) : ℤ) : ℚ) * 2 ^ (Int.log 2 q - 52)
        ≤ (q * 2 ^ ((52:ℤ) - Int.log 2 q) + 1/2) * 2 ^ (Int.log 2 q - 52) := hstep
      _ ≤ q + q / 2^53 := by
          rw [add_mul, mul_assoc, hkey, mul_one]
          linarith [hsmall]

theorem rnd_pos (q : ℚ) (hq : 0 < q) : 0 < rnd q := by
  have hb := (rnd_bounds q hq).1
  have hlt : q / 2^53 < q := by
    apply div_lt_self hq
    norm_num
  linarith

theorem rnd_eq_down (q : ℚ) (e n : ℤ) (hq : 0 < q) (h1 : (2:ℚ)^e ≤ q) (h2 : q < (2:ℚ)^(e+1))
    (hfl : ⌊q * (2:ℚ)^((52:ℤ) - e)⌋ = n) (hfr : Int.fract (q * (2:ℚ)^((52:ℤ) - e)) < 1/2) :
    rnd q = (n : ℚ) * (2:ℚ)^(e - 52) := by
  unfold rnd
  rw [if_neg (not_le.mpr hq), log_eq_of q e hq h1 h2]
  unfold rhe
  rw [if_pos hfr, hfl]

theorem rnd_eq_up (q : ℚ) (e n : ℤ) (hq : 0 < q) (h1 : (2:ℚ)^e ≤ q) (h2 : q < (2:ℚ)^(e+1))
    (hfl : ⌊q * (2:ℚ)^((52:ℤ) - e)⌋ = n) (hfr : 1/2 < Int.fract (q * (2:ℚ)^((52:ℤ) - e))) :
    rnd q = ((n + 1 : ℤ) : ℚ) * (2:ℚ)^(e - 52) := by
  unfold rnd
  rw [if_neg (not_le.mpr hq), log_eq_of q e hq h1 h2]
  unfold rhe
  rw [if_neg (not_lt.mpr (le_of_lt hfr)), if_pos hfr, hfl]

theorem resizeScale_pos (m w h : Nat) (hm : 0 < m) (hw : 0 < w) (hh : 0 < h) :
    0 < resizeScale m w h := by
  have hmQ : (0:ℚ) < m := by exact_mod_cast hm
  have hwQ : (0:ℚ) < w := by exact_mod_cast hw
  have hhQ : (0:ℚ) < h := by exact_mod_cast hh
  unfold resizeScale flDiv
  exact lt_min (rnd_pos _ (div_pos hmQ hwQ)) (rnd_pos _ (div_pos hmQ hhQ))

theorem resizeScale_bracket (m w h : Nat) (hm : 0 < m) (hw : 0 < w) (hh : 0 < h) :
    ((m:ℚ) / ((max w h : ℕ) : ℚ)) * (1 - 1/2^53) ≤ resizeScale m w h
    ∧ resizeScale m w h ≤ ((m:ℚ) / ((max w h : ℕ) : ℚ)) * (1 + 1/2^53) := by
  have hmQ : (0:ℚ) < m := by exact_mod_cast hm
  have hwQ : (0:ℚ) < w := by exact_mod_cast hw
  have hhQ : (0:ℚ) < h := by exact_mod_cast hh
  have hbw := rnd_bounds ((m:ℚ)/w) (div_pos hmQ hwQ)
  have hbh := rnd_bounds ((m:ℚ)/h) (div_pos hmQ hhQ)
  unfold resizeScale flDiv
  rcases le_total w h with hc | hc
  · have hcQ : (w:ℚ) ≤ h := by exact_mod_cast hc
    have hmax : ((max w h : ℕ) : ℚ) = (h:ℚ) := by
      rw [max_eq_right hc]
    rw [hmax]
    have hle : (m:ℚ)/h ≤ (m:ℚ)/w := by gcongr
    constructor
    · apply le_min
      · calc (m:ℚ)/h * (1 - 1/2^53) ≤ (m:ℚ)/w * (1 - 1/2^53) :=
              mul_le_mul_of_nonneg_right hle (by norm_num)
          _ = (m:ℚ)/w - ((m:ℚ)/w)/2^53 := by ring
          _ ≤ rnd ((m:ℚ)/w) := hbw.1
      · calc (m:ℚ)/h * (1 - 1/2^53) = (m:ℚ)/h - ((m:ℚ)/h)/2^53 := by ring
          _ ≤ rnd ((m:ℚ)/h) := hbh.1
    · calc min (rnd ((m:ℚ)/w)) (rnd ((m:ℚ)/h)) ≤ rnd ((m:ℚ)/h) := min_le_right _ _
        _ ≤ (m:ℚ)/h + ((m:ℚ)/h)/2^53 := hbh.2
        _ = (m:ℚ)/h * (1 + 1/2^53) := by ring
  · have hcQ : (h:ℚ) ≤ w := by exact_mod_cast hc
    have hmax : ((max w h : ℕ) : ℚ) = (w:ℚ) := by
      rw [max_eq_left hc]
    rw [hmax]
    have hle : (m:ℚ)/w ≤ (m:ℚ)/h := by gcongr
    constructor
    · apply le_min
      · calc (m:ℚ)/w * (1 - 1/2^53) = (m:ℚ)/w - ((m:ℚ)/w)/2^53 := by ring
          _ ≤ rnd ((m:ℚ)/w) := hbw.1
      · calc (m:ℚ)/w * (1 - 1/2^53) ≤ (m:ℚ)/h * (1 - 1/2^53) :=
              mul_le_mul_of_nonneg_right hle (by norm_num)
          _ = (m:ℚ)/h - ((m:ℚ)/h)/2^53 := by ring
          _ ≤ rnd ((m:ℚ)/h) := hbh.1
    · calc min (rnd ((m:ℚ)/w)) (rnd ((m:ℚ)/h)) ≤ rnd ((m:ℚ)/w) := min_le_left _ _
        _ ≤ (m:ℚ)/w + ((m:ℚ)/w)/2^53 := hbw.2
        _ = (m:ℚ)/w * (1 + 1/2^53) := by ring

theorem flMul_bounds (d : ℕ) (ρ : ℚ) (hd : 0 < d) (hρ : 0 < ρ) :
    (d:ℚ) * ρ * (1 - 1/2^53) ≤ flMul d ρ ∧ flMul d ρ ≤ (d:ℚ) * ρ * (1 + 1/2^53) := by
  have hdQ : (0:ℚ) < d := by exact_mod_cast hd
  have hb := rnd_bounds ((d:ℚ) * ρ) (mul_pos hdQ hρ)
  unfold flMul
  constructor
  · calc (d:ℚ) * ρ * (1 - 1/2^53) = (d:ℚ) * ρ - ((d:ℚ) * ρ)/2^53 := by ring
      _ ≤ rnd ((d:ℚ) * ρ) := hb.1
  · calc rnd ((d:ℚ) * ρ) ≤ (d:ℚ) * ρ + ((d:ℚ) * ρ)/2^53 := hb.2
      _ = (d:ℚ) * ρ * (1 + 1/2^53) := by ring

/-- C4 counterexample: the claim that the larger output dimension equals
max_size (and that the dimensions are the floors of the exact rational
products) fails on the code: for a 1568x1568 image with max_size 32, the
doubles of app.py lines 33-35 give ratio = fl(32/1568) and
int(1568 * ratio) = int(32 - 2^-48) = 31, one short of 32. -/
theorem C4_resize_dims_counterexample :
    newWidth 32 1568 1568 = 31 ∧ newHeight 32 1568 1568 = 31
    ∧ max (newWidth 32 1568 1568) (newHeight 32 1568 1568) ≠ 32 := by
  have h49 : rnd ((32:ℚ)/1568) = 5882252574524729 * (2:ℚ)^(-58:ℤ) := by
    have hfl : ⌊((32:ℚ)/1568) * (2:ℚ)^((52:ℤ) - (-6))⌋ = 5882252574524729 := by
      rw [Int.floor_eq_iff]
      constructor <;> norm_num
    have hfr : Int.fract (((32:ℚ)/1568) * (2:ℚ)^((52:ℤ) - (-6))) < 1/2 := by
      rw [Int.fract, hfl]
      norm_num
    rw [rnd_eq_down ((32:ℚ)/1568) (-6) 5882252574524729 (by norm_num) (by norm_num)
      (by norm_num) hfl hfr]
    norm_num
  have hmul : rnd ((1568:ℚ) * (5882252574524729 * (2:ℚ)^(-58:ℤ))) =
      9007199254740991 * (2:ℚ)^(-48:ℤ) := by
    have hfl : ⌊((1568:ℚ) * (5882252574524729 * (2:ℚ)^(-58:ℤ))) * (2:ℚ)^((52:ℤ) - 4)⌋ =
        9007199254740991 := by
      rw [Int.floor_eq_iff]
      constructor <;> norm_num
    have hfr : Int.fract (((1568:ℚ) * (5882252574524729 * (2:ℚ)^(-58:ℤ))) *
        (2:ℚ)^((52:ℤ) - 4)) < 1/2 := by
      rw [Int.fract, hfl]
      norm_num
    rw [rnd_eq_down _ 4 9007199254740991 (by norm_num) (by norm_num) (by norm_num) hfl hfr]
    norm_num
  have hdim : newWidth 32 1568 1568 = 31 := by
    unfold newWidth resizeScale flDiv flMul
    rw [show ((1568:ℕ):ℚ) = 1568 by norm_num, show ((32:ℕ):ℚ) = 32 by norm_num, min_self,
      h49, hmul]
    rw [show ⌊(9007199254740991:ℚ) * (2:ℚ)^(-48:ℤ)⌋ = 31 from by
      rw [Int.floor_eq_iff]
      constructor <;> norm_num]
    rfl
  have hdim2 : newHeight 32 1568 1568 = 31 := hdim
  refine ⟨hdim, hdim2, ?_⟩
  rw [hdim, hdim2]
  decide

/-- C4 (amended): for every image exceeding max_size in some dimension, with
max_size at most 2^31 (covering the 32..512 slider), the resampler computes
ratio = min(max_size/width, max_size/height) in IEEE doubles and produces
dimensions int(width*ratio), int(height*ratio); the larger output dimension
equals max_size or falls exactly one short of it (a double-rounding effect),
no output dimension ever exceeds max_size, each output dimension is the
floor of its double product, and the double ratio is within one part in 2^53
of the exact ratio max_size/max(width,height), so the aspect ratio is
preserved within one pixel up to that relative rounding error. -/
theorem C4_resize_dims_float (m w h : Nat) (hm : 0 < m) (hw : 0 < w) (hh : 0 < h)
    (hex : m < w ∨ m < h) (hmB : m ≤ 2 ^ 31) :
    (m - 1 ≤ max (newWidth m w h) (newHeight m w h)
      ∧ max (newWidth m w h) (newHeight m w h) ≤ m)
    ∧ ((newWidth m w h : ℚ) ≤ flMul w (resizeScale m w h)
        ∧ flMul w (resizeScale m w h) < (newWidth m w h : ℚ) + 1)
    ∧ ((newHeight m w h : ℚ) ≤ flMul h (resizeScale m w h)
        ∧ flMul h (resizeScale m w h) < (newHeight m w h : ℚ) + 1)
    ∧ (((m:ℚ) / ((max w h : ℕ) : ℚ)) * (1 - 1/2^53) ≤ resizeScale m w h
        ∧ resizeScale m w h ≤ ((m:ℚ) / ((max w h : ℕ) : ℚ)) * (1 + 1/2^53))
    ∧ ∀ (pix : Nat → Nat → RGB) (kernel : Kernel),
        (processImage true m kernel ⟨w, h, pix⟩).width = newWidth m w h
        ∧ (processImage true m kernel ⟨w, h, pix⟩).height = newHeight m w h := by
  have hmQ : (0:ℚ) < m := by exact_mod_cast hm
  have hm31 : (m:ℚ) ≤ 2^31 := by exact_mod_cast hmB
  have hρ := resizeScale_pos m w h hm hw hh
  have hbr := resizeScale_bracket m w h hm hw hh
  have hWQ : (0:ℚ) < ((max w h : ℕ) : ℚ) := by
    exact_mod_cast lt_of_lt_of_le hw (le_max_left w h)
  have hdimle : ∀ d : ℕ, 0 < d → d ≤ max w h →
      (⌊flMul (d:ℚ) (resizeScale m w h)⌋).toNat ≤ m := by
    intro d hd hdle
    have hdleQ : (d:ℚ) ≤ ((max w h : ℕ) : ℚ) := by exact_mod_cast hdle
    have hWq : ((max w h : ℕ):ℚ) * ((m:ℚ)/((max w h : ℕ):ℚ)) = m := by field_simp
    have hstep : (d:ℚ) * resizeScale m w h ≤ (m:ℚ) * (1 + 1/2^53) := by
      calc (d:ℚ) * resizeScale m w h ≤ ((max w h : ℕ):ℚ) * resizeScale m w h :=
            mul_le_mul_of_nonneg_right hdleQ (le_of_lt hρ)
        _ ≤ ((max w h : ℕ):ℚ) * (((m:ℚ)/((max w h : ℕ):ℚ)) * (1 + 1/2^53)) :=
            mul_le_mul_of_nonneg_left hbr.2 (le_of_lt hWQ)
        _ = (m:ℚ) * (1 + 1/2^53) := by rw [← mul_assoc, hWq]
    have hub := (flMul_bounds d (resizeScale m w h) hd hρ).2
    have h2 : (d:ℚ) * resizeScale m w h * (1 + 1/2^53) ≤ (m:ℚ) * (1 + 1/2^53) * (1 + 1/2^53) :=
      mul_le_mul_of_nonneg_right hstep (by norm_num)
    have h3 : (m:ℚ) * (1 + 1/2^53) * (1 + 1/2^53) < m + 1 := by
      have hexp : (m:ℚ) * (1 + 1/2^53) * (1 + 1/2^53)
          = m + (m:ℚ) * (2/2^53 + 1/2^53 * (1/2^53)) := by ring
      rw [hexp]
      have hb1 : (m:ℚ) * (2/2^53 + 1/2^53 * (1/2^53)) ≤ (2^31:ℚ) * (2/2^53 + 1/2^53 * (1/2^53)) :=
        mul_le_mul_of_nonneg_right hm31 (by norm_num)
      have hb2 : (2^31:ℚ) * (2/2^53 + 1/2^53 * (1/2^53)) < 1 := by norm_num
      linarith
    have hlt : flMul (d:ℚ) (resizeScale m w h) < (m:ℚ) + 1 := by linarith
    have hfloorQ : (⌊flMul (d:ℚ) (resizeScale m w h)⌋ : ℚ) < (m:ℚ) + 1 :=
      lt_of_le_of_lt (Int.floor_le _) hlt
    have hfloorZ : ⌊flMul (d:ℚ) (resizeScale m w h)⌋ < (m:ℤ) + 1 := by exact_mod_cast hfloorQ
    have hfloorle : ⌊flMul (d:ℚ) (resizeScale m w h)⌋ ≤ (m:ℤ) := by omega
    exact Int.toNat_le.mpr hfloorle
  have hdimge : ∀ d : ℕ, 0 < d → (d:ℚ) = ((max w h : ℕ):ℚ) →
      m - 1 ≤ (⌊flMul (d:ℚ) (resizeScale m w h)⌋).toNat := by
    intro d hd hmax
    have hWq : (d:ℚ) * ((m:ℚ)/((max w h:ℕ):ℚ)) = m := by
      rw [hmax]
      field_simp
    have hdQ : (0:ℚ) ≤ d := Nat.cast_nonneg d
    have hstep : (m:ℚ) * (1 - 1/2^53) ≤ (d:ℚ) * resizeScale m w h := by
      calc (m:ℚ) * (1 - 1/2^53)
          = (d:ℚ) * (((m:ℚ)/((max w h:ℕ):ℚ)) * (1 - 1/2^53)) := by rw [← mul_assoc, hWq]
        _ ≤ (d:ℚ) * resizeScale m w h := mul_le_mul_of_nonneg_left hbr.1 hdQ
    have hlbm := (flMul_bounds d (resizeScale m w h) hd hρ).1
    have h2 : (m:ℚ) * (1 - 1/2^53) * (1 - 1/2^53) ≤ (d:ℚ) * resizeScale m w h * (1 - 1/2^53) :=
      mul_le_mul_of_nonneg_right hstep (by norm_num)
    have h3 : (m:ℚ) - 1 < (m:ℚ) * (1 - 1/2^53) * (1 - 1/2^53) := by
      have hexp : (m:ℚ) * (1 - 1/2^53) * (1 - 1/2^53)
          = m - (m:ℚ) * (2/2^53 - 1/2^53 * (1/2^53)) := by ring
      rw [hexp]
      have hb1 : (m:ℚ) * (2/2^53 - 1/2^53 * (1/2^53)) ≤ (2^31:ℚ) * (2/2^53 - 1/2^53 * (1/2^53)) :=
        mul_le_mul_of_nonneg_right hm31 (by norm_num)
      have hb2 : (2^31:ℚ) * (2/2^53 - 1/2^53 * (1/2^53)) < 1 := by norm_num
      linarith
    have hlb : (m:ℚ) - 1 < flMul (d:ℚ) (resizeScale m w h) := by linarith
    have hflZ : ((m:ℤ) - 1) ≤ ⌊flMul (d:ℚ) (resizeScale m w h)⌋ := by
      apply Int.le_floor.mpr
      push_cast
      linarith
    have ht1 : ((m:ℤ) - 1).toNat ≤ (⌊flMul (d:ℚ) (resizeScale m w h)⌋).toNat :=
      Int.toNat_le_toNat hflZ
    have ht2 : ((m:ℤ) - 1).toNat = m - 1 := by omega
    omega
  refine ⟨⟨?_, ?_⟩, ?_, ?_, hbr, ?_⟩
  · rcases le_total h w with hc | hc
    · have hmax : (w:ℚ) = ((max w h : ℕ):ℚ) := by
        rw [max_eq_left hc]
      exact le_trans (hdimge w hw hmax) (le_max_left _ _)
    · have hmax : (h:ℚ) = ((max w h : ℕ):ℚ) := by
        rw [max_eq_right hc]
      exact le_trans (hdimge h hh hmax) (le_max_right _ _)
  · exact max_le (hdimle w hw (le_max_left w h)) (hdimle h hh (le_max_right w h))
  · have hwQ : (0:ℚ) < w := by exact_mod_cast hw
    have hp : (0:ℚ) < (w:ℚ) * resizeScale m w h * (1 - 1/2^53) :=
      mul_pos (mul_pos hwQ hρ) (by norm_num)
    exact floor_toNat_bounds _ (le_of_lt (lt_of_lt_of_le hp
      (flMul_bounds w (resizeScale m w h) hw hρ).1))
  · have hhQ : (0:ℚ) < h := by exact_mod_cast hh
    have hp : (0:ℚ) < (h:ℚ) * resizeScale m w h * (1 - 1/2^53) :=
      mul_pos (mul_pos hhQ hρ) (by norm_num)
    exact floor_toNat_bounds _ (le_of_lt (lt_of_lt_of_le hp
      (flMul_bounds h (resizeScale m w h) hh hρ).1))
  · intro pix kernel
    have hc : (true = true ∧ (m < (Img.mk w h pix).width ∨ m < (Img.mk w h pix).height)) :=
      ⟨rfl, hex⟩
    unfold processImage
    rw [if_pos hc]
    exact ⟨rfl, rfl⟩

theorem C4_resize_dims_float_witness :
    100 - 1 ≤ max (newWidth 100 300 200) (newHeight 100 300 200)
    ∧ max (newWidth 100 300 200) (newHeight 100 300 200) ≤ 100 :=
  (C4_resize_dims_float 100 300 200 (by decide) (by decide) (by decide) (Or.inl (by decide))
    (by decide)).1

/-- C7: with resizing disabled, the pipeline ignores max_size and the
resampling kernel entirely: any two conversions of the same image that
differ only in those parameters produce the same processed image and the
same per-cell color assignment. -/
theorem C7_ignore_resize_params_when_disabled (img : Img) (m1 m2 : Nat) (k1 k2 : Kernel) :
    processImage false m1 k1 img = processImage false m2 k2 img
    ∧ encodeImage (processImage false m1 k1 img) = encodeImage (processImage false m2 k2 img) := by
  have h : ∀ (m : Nat) (k : Kernel), processImage false m k img = img := by
    intro m k
    unfold processImage
    rw [if_neg]
    rintro ⟨hft, -⟩
    exact absurd hft (by decide)
  rw [h m1 k1, h m2 k2]
  exact ⟨rfl, rfl⟩

/-- C9: the resize formula does not guard against zero output dimensions:
for a 1000x1 image with max_size 32 the computed new height
floor(height * ratio) is 0, so the resize step is invoked with a zero
dimension and the conversion produces a grid with no cells rather than a
W x H grid with both dimensions at least 1. -/
theorem C9_zero_dimension_resize :
    newHeight 32 1000 1 = 0
    ∧ (processImage true 32 Kernel.nearest ⟨1000, 1, fun _ _ => (0, 0, 0)⟩).height = 0
    ∧ (encodeImage (processImage true 32 Kernel.nearest ⟨1000, 1, fun _ _ => (0, 0, 0)⟩)).grid
        = [] := by
  have hms : rnd ((32:ℚ)/1000) = 4611686018427388 * (2:ℚ)^(-57:ℤ) := by
    have hfl : ⌊((32:ℚ)/1000) * (2:ℚ)^((52:ℤ) - (-5))⌋ = 4611686018427387 := by
      rw [Int.floor_eq_iff]
      constructor <;> norm_num
    have hfr : 1/2 < Int.fract (((32:ℚ)/1000) * (2:ℚ)^((52:ℤ) - (-5))) := by
      rw [Int.fract, hfl]
      norm_num
    rw [rnd_eq_up ((32:ℚ)/1000) (-5) 4611686018427387 (by norm_num) (by norm_num)
      (by norm_num) hfl hfr]
    norm_num
  have h32 : rnd ((32:ℚ)/1) = 32 := by
    have h321 : (32:ℚ)/1 = 32 := by norm_num
    have hfl : ⌊(32:ℚ) * (2:ℚ)^((52:ℤ) - 5)⌋ = 4503599627370496 := by
      rw [Int.floor_eq_iff]
      constructor <;> norm_num
    have hfr : Int.fract ((32:ℚ) * (2:ℚ)^((52:ℤ) - 5)) < 1/2 := by
      rw [Int.fract, hfl]
      norm_num
    rw [h321, rnd_eq_down (32:ℚ) 5 4503599627370496 (by norm_num) (by norm_num) (by norm_num)
      hfl hfr]
    norm_num
  have hmin : min (rnd ((32:ℚ)/1000)) (rnd ((32:ℚ)/1)) = 4611686018427388 * (2:ℚ)^(-57:ℤ) := by
    rw [hms, h32]
    apply min_eq_left
    norm_num
  have hrr : rnd ((1:ℚ) * (4611686018427388 * (2:ℚ)^(-57:ℤ))) =
      4611686018427388 * (2:ℚ)^(-57:ℤ) := by
    rw [one_mul]
    have hfl : ⌊((4611686018427388:ℚ) * (2:ℚ)^(-57:ℤ)) * (2:ℚ)^((52:ℤ) - (-5))⌋ =
        4611686018427388 := by
      rw [Int.floor_eq_iff]
      constructor <;> norm_num
    have hfr : Int.fract (((4611686018427388:ℚ) * (2:ℚ)^(-57:ℤ)) * (2:ℚ)^((52:ℤ) - (-5)))
        < 1/2 := by
      rw [Int.fract, hfl]
      norm_num
    rw [rnd_eq_down _ (-5) 4611686018427388 (by norm_num) (by norm_num) (by norm_num) hfl hfr]
    norm_num
  have h1 : newHeight 32 1000 1 = 0 := by
    unfold newHeight resizeScale flDiv flMul
    rw [show ((32:ℕ):ℚ) = 32 by norm_num, show ((1000:ℕ):ℚ) = 1000 by norm_num,
      show ((1:ℕ):ℚ) = 1 from Nat.cast_one, hmin, hrr]
    rw [show ⌊(4611686018427388:ℚ) * (2:ℚ)^(-57:ℤ)⌋ = 0 from by
      rw [Int.floor_eq_iff]
      constructor <;> norm_num]
    rfl
  have hproc : processImage true 32 Kernel.nearest ⟨1000, 1, fun _ _ => (0, 0, 0)⟩ =
      resizeImage Kernel.nearest ⟨1000, 1, fun _ _ => (0, 0, 0)⟩ (newWidth 32 1000 1) 0 := by
    unfold processImage
    rw [if_pos ⟨rfl, Or.inl (by norm_num)⟩]
    show resizeImage Kernel.nearest _ (newWidth 32 1000 1) (newHeight 32 1000 1) = _
    rw [h1]
  refine ⟨h1, ?_, ?_⟩
  · rw [hproc]
    rfl
  · rw [hproc]
    rfl

/-! The progress signal: claim C5. -/

/-- C5 counterexample: for a 2-row image the code sends four values to the
progress bar — initialization at 0, one per row, and a final repeated 1.0
while finalizing — not 2, and the sequence is not strictly increasing. -/
theorem C5_progress_count_counterexample :
    progressTrace 2 = [0, 1 / 2, 1, 1]
    ∧ (progressTrace 2).length ≠ 2
    ∧ ¬ (progressTrace 2).Chain' (· < ·) := by
  have h : progressTrace 2 = [0, 1 / 2, 1, 1] := by
    unfold progressTrace rowTrace
    norm_num [List.range_succ]
  refine ⟨h, by rw [h]; decide, ?_⟩
  rw [h]
  norm_num [List.chain'_cons]

/-- C5 amended: for every conversion over an image of height H >= 1, the
progress bar receives H + 2 fraction values: 0 at creation, then one after
each completed row — the fractions (y+1)/H for y = 0..H-1, strictly
increasing and ending at 1.0 — then one more final 1.0 while the file is
finalized. -/
theorem C5_progress_trace_amended (h : Nat) (hh : 0 < h) :
    progressTrace h = 0 :: rowTrace h ++ [1]
    ∧ (rowTrace h).length = h
    ∧ (rowTrace h).Chain' (· < ·)
    ∧ (rowTrace h).getLast? = some 1
    ∧ (progressTrace h).getLast? = some 1
    ∧ (progressTrace h).length = h + 2 := by
  obtain ⟨k, rfl⟩ : ∃ k, h = k + 1 := ⟨h - 1, by omega⟩
  refine ⟨rfl, ?_, ?_, ?_, ?_, ?_⟩
  · unfold rowTrace
    rw [List.length_map, List.length_range]
  · apply List.Pairwise.chain'
    unfold rowTrace
    rw [List.pairwise_map]
    refine List.Pairwise.imp ?_ (List.pairwise_lt_range (k + 1))
    intro a b hab
    have hc : (0 : ℚ) < ((k + 1 : Nat) : ℚ) := by exact_mod_cast Nat.succ_pos k
    have hn : ((a : ℚ)) + 1 < ((b : ℚ)) + 1 := by
      have hq : (a : ℚ) < b := by exact_mod_cast hab
      linarith
    exact div_lt_div_of_pos_right hn hc
  · unfold rowTrace
    rw [List.range_succ, List.map_append, List.map_cons, List.map_nil, List.getLast?_concat]
    have hone : ((k : ℚ) + 1) / ((k + 1 : Nat) : ℚ) = 1 := by
      rw [div_eq_one_iff_eq (Nat.cast_ne_zero.mpr (Nat.succ_ne_zero k))]
      push_cast
      ring
    rw [hone]
  · show ((0 : ℚ) :: (rowTrace (k + 1) ++ [1])).getLast? = some 1
    rw [← List.cons_append, List.getLast?_concat]
  · unfold progressTrace rowTrace
    simp only [List.length_cons, List.length_append, List.length_map, List.length_range,
      List.length_singleton, List.length_nil]

theorem C5_progress_trace_amended_witness :
    progressTrace 3 = 0 :: rowTrace 3 ++ [1]
    ∧ (rowTrace 3).length = 3
    ∧ (rowTrace 3).Chain' (· < ·)
    ∧ (rowTrace 3).getLast? = some 1
    ∧ (progressTrace 3).getLast? = some 1
    ∧ (progressTrace 3).length = 3 + 2 :=
  C5_progress_trace_amended 3 (by decide)

/-! The error-propagation contract: claim C8. -/

theorem ok_bind {E A X : Type} (a : A) (f : A → Except E X) :
    (Except.ok a >>= f) = f a := rfl

theorem error_bind {E A X : Type} (e : E) (f : A → Except E X) :
    ((Except.error e : Except E A) >>= f) = Except.error e := rfl

/-- C8: a buffer is returned if and only if every stage (decode, resize,
encode, serialize) succeeded; when any stage fails, the pipeline performs no
local recovery — the conversion aborts and that stage's error propagates to
the caller unchanged, with no partial output. -/
theorem C8_pipeline_error_propagation {A B C D E : Type}
    (decode : A → Except E B) (resample : B → Except E B) (encode : B → Except E C)
    (serialize : C → Except E D) (input : A) :
    ((∃ buf, runPipeline decode resample encode serialize input = Except.ok buf) ↔
      (∃ img, decode input = Except.ok img ∧ ∃ proc, resample img = Except.ok proc ∧
        ∃ grid, encode proc = Except.ok grid ∧ ∃ buf, serialize grid = Except.ok buf))
    ∧ (∀ e, decode input = Except.error e →
        runPipeline decode resample encode serialize input = Except.error e)
    ∧ (∀ img e, decode input = Except.ok img → resample img = Except.error e →
        runPipeline decode resample encode serialize input = Except.error e)
    ∧ (∀ img proc e, decode input = Except.ok img → resample img = Except.ok proc →
        encode proc = Except.error e →
        runPipeline decode resample encode serialize input = Except.error e)
    ∧ (∀ img proc grid e, decode input = Except.ok img → resample img = Except.ok proc →
        encode proc = Except.ok grid → serialize grid = Except.error e →
        runPipeline decode resample encode serialize input = Except.error e) := by
  refine ⟨?_, ?_, ?_, ?_, ?_⟩
  · constructor
    · rintro ⟨buf, hbuf⟩
      cases hd : decode input with
      | error e0 => simp [runPipeline, hd, error_bind] at hbuf
      | ok img0 =>
        cases hr : resample img0 with
        | error e0 => simp [runPipeline, hd, hr, ok_bind, error_bind] at hbuf
        | ok proc0 =>
          cases he : encode proc0 with
          | error e0 => simp [runPipeline, hd, hr, he, ok_bind, error_bind] at hbuf
          | ok grid0 =>
            have hse : serialize grid0 = Except.ok buf := by
              simpa [runPipeline, hd, hr, he, ok_bind] using hbuf
            exact ⟨img0, rfl, proc0, hr, grid0, he, buf, hse⟩
    · rintro ⟨img, hdi, proc, hrp, grid, hee, buf, hse⟩
      refine ⟨buf, ?_⟩
      simp [runPipeline, hdi, hrp, hee, hse, ok_bind]
  · intro e hde
    simp [runPipeline, hde, error_bind]
  · rintro img e hdi hre
    simp [runPipeline, hdi, hre, ok_bind, error_bind]
  · rintro img proc e hdi hrp hee
    simp [runPipeline, hdi, hrp, hee, ok_bind, error_bind]
  · rintro img proc grid e hdi hrp hee hse
    simp [runPipeline, hdi, hrp, hee, hse, ok_bind, error_bind]

/-! The quantization stage, modelled from the spec: claim C6. -/

theorem addE_zero_right (a : IntRGB) : addE a zeroE = a := by
  simp [addE, zeroE]

theorem scaleErr_zero (k : Int) : scaleErr k zeroE = zeroE := by
  simp [scaleErr, zeroE]

theorem subE_self (a : IntRGB) : subE a a = zeroE := by
  simp [subE, zeroE]

theorem clamp3_toE (c : RGB) (h : validRGB c) : clamp3 (addE (toE c) zeroE) = c := by
  obtain ⟨r, g, b⟩ := c
  obtain ⟨h1, h2, h3⟩ := h
  simp only at h1 h2 h3
  simp only [clamp3, clampChan, addE, toE, zeroE, Prod.mk.injEq]
  refine ⟨?_, ?_, ?_⟩ <;> omega

theorem dist2_self (a : RGB) : dist2 a a = 0 := by
  simp [dist2]

theorem dist2_nonneg (a b : RGB) : 0 ≤ dist2 a b := by
  unfold dist2
  positivity

theorem dist2_eq_zero (a b : RGB) (h : dist2 a b = 0) : a = b := by
  obtain ⟨a1, a2, a3⟩ := a
  obtain ⟨b1, b2, b3⟩ := b
  simp only [dist2] at h
  have s1 := sq_nonneg ((a1 : Int) - b1)
  have s2 := sq_nonneg ((a2 : Int) - b2)
  have s3 := sq_nonneg ((a3 : Int) - b3)
  have e1 : ((a1 : Int) - b1) ^ 2 = 0 := by nlinarith
  have e2 : ((a2 : Int) - b2) ^ 2 = 0 := by nlinarith
  have e3 : ((a3 : Int) - b3) ^ 2 = 0 := by nlinarith
  have f1 : a1 = b1 := by have := sq_eq_zero_iff.mp e1; omega
  have f2 : a2 = b2 := by have := sq_eq_zero_iff.mp e2; omega
  have f3 : a3 = b3 := by have := sq_eq_zero_iff.mp e3; omega
  simp [f1, f2, f3]

theorem nearestColor_mem (pal : List RGB) (v : RGB) (h : pal ≠ []) :
    nearestColor pal v ∈ pal := by
  induction pal with
  | nil => simp at h
  | cons c rest ih =>
    cases rest with
    | nil => simp [nearestColor]
    | cons c2 rest2 =>
      simp only [nearestColor]
      split_ifs with hle
      · exact List.mem_cons_self c (c2 :: rest2)
      · exact List.mem_cons_of_mem c (ih (by simp))

theorem nearestColor_self (pal : List RGB) (v : RGB) (h : v ∈ pal) :
    nearestColor pal v = v := by
  induction pal with
  | nil => simp at h
  | cons c rest ih =>
    cases rest with
    | nil =>
      have hv : v = c := by simpa using h
      simp [nearestColor, hv]
    | cons c2 rest2 =>
      simp only [nearestColor]
      rcases List.mem_cons.mp h with rfl | hv
      · rw [if_pos]
        rw [dist2_self]
        exact dist2_nonneg _ _
      · have hr : nearestColor (c2 :: rest2) v = v := ih hv
        rw [hr]
        by_cases hle : dist2 c v ≤ dist2 v v
        · rw [if_pos hle]
          have h0 : dist2 c v = 0 :=
            le_antisymm (by simpa [dist2_self] using hle) (dist2_nonneg c v)
          exact dist2_eq_zero c v h0
        · rw [if_neg hle]

theorem headD_zero (l : List IntRGB) (h : ∀ e ∈ l, e = zeroE) : l.headD zeroE = zeroE := by
  cases l with
  | nil => rfl
  | cons a t => exact h a (by simp)

theorem fsRow_zero (pal : List RGB) :
    ∀ (pxs : List RGB) (inE : List IntRGB),
      (∀ p ∈ pxs, p ∈ pal ∧ validRGB p) → (∀ e ∈ inE, e = zeroE) →
      fsRow pal pxs inE zeroE zeroE zeroE = (pxs, List.replicate (pxs.length + 1) zeroE) := by
  intro pxs
  induction pxs with
  | nil => intro inE _ _; rfl
  | cons px rest ih =>
    intro inE hpx hin
    obtain ⟨hmem, hval⟩ := hpx px (by simp)
    simp only [fsRow]
    rw [headD_zero inE hin, addE_zero_right, clamp3_toE px hval,
      nearestColor_self pal px hmem, subE_self]
    simp only [scaleErr_zero, addE_zero_right]
    rw [ih inE.tail (fun p hp => hpx p (by simp [hp]))
      (fun e he => hin e (List.mem_of_mem_tail he))]
    simp [List.replicate_succ]

theorem fsRows_zero (pal : List RGB) :
    ∀ (rows : List (List RGB)) (inE : List IntRGB),
      (∀ r ∈ rows, ∀ p ∈ r, p ∈ pal ∧ validRGB p) → (∀ e ∈ inE, e = zeroE) →
      fsRows pal rows inE = rows := by
  intro rows
  induction rows with
  | nil => intro inE _ _; rfl
  | cons r rs ih =>
    intro inE hall hin
    simp only [fsRows]
    rw [fsRow_zero pal r inE (hall r (by simp)) hin]
    have htail : (List.replicate (r.length + 1) zeroE).tail = List.replicate r.length zeroE := by
      simp
    rw [htail, ih (List.replicate r.length zeroE)
      (fun r' hr' p hp => hall r' (by simp [hr']) p hp)
      (fun e he => List.eq_of_mem_replicate he)]

theorem fsRow_mem (pal : List RGB) (hne : pal ≠ []) :
    ∀ (pxs : List RGB) (inE : List IntRGB) (carry a b : IntRGB),
      ∀ q ∈ (fsRow pal pxs inE carry a b).1, q ∈ pal := by
  intro pxs
  induction pxs with
  | nil => intro inE c a b q hq; simp [fsRow] at hq
  | cons px rest ih =>
    intro inE c a b q hq
    simp only [fsRow] at hq
    rcases List.mem_cons.mp hq with rfl | h
    · exact nearestColor_mem pal _ hne
    · exact ih _ _ _ _ q h

theorem fsRows_mem (pal : List RGB) (hne : pal ≠ []) :
    ∀ (rows : List (List RGB)) (inE : List IntRGB),
      ∀ r ∈ fsRows pal rows inE, ∀ q ∈ r, q ∈ pal := by
  intro rows
  induction rows with
  | nil => intro inE r hr; simp [fsRows] at hr
  | cons r0 rs ih =>
    intro inE r hr q hq
    simp only [fsRows] at hr
    rcases List.mem_cons.mp hr with rfl | h
    · exact fsRow_mem pal hne r0 inE zeroE zeroE zeroE q hq
    · exact ih _ r h q hq

theorem palette_length_le (n : Nat) (rows : List (List RGB)) : (palette n rows).length ≤ n := by
  unfold palette
  split_ifs with h
  · exact h
  · exact List.length_take_le n _

theorem palette_subset (n : Nat) (rows : List (List RGB)) :
    palette n rows ⊆ rows.flatten.dedup := by
  unfold palette
  split_ifs with h
  · exact fun a ha => ha
  · intro a ha
    exact (List.mergeSort_perm _ _).subset (List.take_subset _ _ ha)

theorem palette_eq_of_small (n : Nat) (rows : List (List RGB))
    (h : rows.flatten.dedup.length ≤ n) : palette n rows = rows.flatten.dedup := by
  unfold palette
  rw [if_pos h]

theorem palette_nil (n : Nat) (rows : List (List RGB)) (hn : 0 < n)
    (h : palette n rows = []) : rows.flatten = [] := by
  unfold palette at h
  split_ifs at h with hc
  · exact (List.dedup_eq_nil _).mp h
  · exfalso
    rcases List.take_eq_nil_iff.mp h with h0 | hms
    · omega
    · have hlen := (List.mergeSort_perm rows.flatten.dedup
        fun c d => decide (rows.flatten.count d ≤ rows.flatten.count c)).length_eq
      rw [hms] at hlen
      simp at hlen
      omega

theorem nodup_subset_length_le {α : Type} [DecidableEq α] (l m : List α)
    (hn : l.Nodup) (hs : l ⊆ m) : l.length ≤ m.length :=
  (hn.subperm hs).length_le

/-- C6: the quantization stage (modelled from the spec; src/ has no
quantizer) produces an image with at most n distinct colors, and applying
it twice with the same n is idempotent on the already-quantized image. -/
theorem C6_quantize_bounded_idempotent (n : Nat) (rows : List (List RGB))
    (hn : 0 < n) (hval : validRows rows) :
    (quantize n rows).flatten.dedup.length ≤ n
    ∧ quantize n (quantize n rows) = quantize n rows := by
  by_cases hpal : (palette n rows).isEmpty = true
  · have hq : quantize n rows = rows := by
      unfold quantize
      rw [if_pos hpal]
    have hfe : rows.flatten = [] := palette_nil n rows hn (List.isEmpty_iff.mp hpal)
    constructor
    · rw [hq, hfe]
      simp
    · rw [hq]
      exact hq
  · have hne : palette n rows ≠ [] := fun h => hpal (by simp [h])
    have hq : quantize n rows = fsRows (palette n rows) rows [] := by
      unfold quantize
      rw [if_neg hpal]
    have hmem : ∀ r ∈ fsRows (palette n rows) rows [], ∀ q ∈ r, q ∈ palette n rows :=
      fsRows_mem (palette n rows) hne rows []
    have hsub : (fsRows (palette n rows) rows []).flatten.dedup ⊆ palette n rows := by
      intro c hc
      obtain ⟨r, hr, hcr⟩ := List.mem_flatten.mp (List.dedup_subset _ hc)
      exact hmem r hr c hcr
    have hlen : (fsRows (palette n rows) rows []).flatten.dedup.length ≤ n :=
      le_trans (nodup_subset_length_le _ _ (List.nodup_dedup _) hsub) (palette_length_le n rows)
    have hvalout : validRows (fsRows (palette n rows) rows []) := by
      intro r hr p hp
      have hp2 : p ∈ rows.flatten := List.dedup_subset _ (palette_subset n rows (hmem r hr p hp))
      obtain ⟨r0, hr0, hpr0⟩ := List.mem_flatten.mp hp2
      exact hval r0 hr0 p hpr0
    have hpal2 : palette n (fsRows (palette n rows) rows []) =
        (fsRows (palette n rows) rows []).flatten.dedup :=
      palette_eq_of_small n _ hlen
    refine ⟨by rw [hq]; exact hlen, ?_⟩
    rw [hq]
    unfold quantize
    rw [hpal2]
    by_cases hnil : (fsRows (palette n rows) rows []).flatten.dedup = []
    · rw [if_pos (by simp [hnil])]
    · rw [if_neg (by simp [hnil])]
      apply fsRows_zero
      · intro r hr p hp
        exact ⟨List.mem_dedup.mpr (List.mem_flatten.mpr ⟨r, hr, hp⟩), hvalout r hr p hp⟩
      · intro e he
        simp at he

theorem C6_quantize_bounded_idempotent_witness :
    (quantize 2 [[(0, 0, 0), (255, 255, 255)]]).flatten.dedup.length ≤ 2
    ∧ quantize 2 (quantize 2 [[(0, 0, 0), (255, 255, 255)]]) =
        quantize 2 [[(0, 0, 0), (255, 255, 255)]] :=
  C6_quantize_bounded_idempotent 2 [[(0, 0, 0), (255, 255, 255)]] (by decide) (by decide)

theorem C8_pipeline_error_propagation_witness :
    runPipeline (fun n : Nat => Except.ok (n + 1))
      (fun _ : Nat => (Except.error ("resize failed") : Except String Nat))
      (fun n : Nat => Except.ok n) (fun n : Nat => (Except.ok n : Except String Nat)) 4
      = Except.error ("resize failed") :=
  (C8_pipeline_error_propagation (fun n : Nat => Except.ok (n + 1))
    (fun _ : Nat => (Except.error ("resize failed") : Except String Nat))
    (fun n : Nat => Except.ok n) (fun n : Nat => (Except.ok n : Except String Nat)) 4).2.2.1
    5 ("resize failed") rfl rfl

end ExcelArt
